import Mathlib

/-!
Verification of the all pairs shortest path core of the repository
(src/Algorithms/allpairsp.py): the Floyd-Warshall engine allpairsp and the
recursive path reconstructor get_int_path.

Edge weights are modelled as nonnegative integers extended with the infinite
sentinel (the Python code uses int weights together with math.inf), so the
value type is ℕ∞ = WithTop ℕ, whose addition saturates at ⊤ exactly like
IEEE infinity does on nonnegative operands.  Matrices are lists of rows, as
in Python; a read outside the matrix returns none, modelling a Python
IndexError that aborts the call.
-/

namespace Algorithms

/-- Weight values: nonnegative integer edge weights extended with the
infinite sentinel. -/
abbrev Val : Type := ℕ∞

/-- The infinite sentinel (from math import inf in the source). -/
def inf : Val := ⊤

/-- Read cell (i, j) of a matrix represented as a list of rows; none models a
Python IndexError. -/
def idx (M : List (List Val)) (i j : ℕ) : Option Val :=
  M[i]?.bind fun r => r[j]?

/-- Write cell (i, j) of a matrix.  The algorithm only writes cells it has
just read successfully, so the out of range behaviour of List.set is never
exercised. -/
def setM (M : List (List Val)) (i j : ℕ) (v : Val) : List (List Val) :=
  M.set i ((M.getD i []).set j v)

/-- One iteration of the relaxation loop body of allpairsp: read D[i][k],
D[k][j] and D[i][j] (none propagates an IndexError) and perform the
conditional improvement of D[i][j] and P[i][j]. -/
def relax (DP : List (List Val) × List (List Val)) (k i j : ℕ) :
    Option (List (List Val) × List (List Val)) :=
  match idx DP.1 i k, idx DP.1 k j, idx DP.1 i j with
  | some a, some b, some c =>
      if a + b < c then some (setM DP.1 i j (a + b), setM DP.2 i j (k : ℕ∞))
      else some DP
  | _, _, _ => none

/-- itertools.product(range(n), range(n), range(n)) in the loop order
(k, i, j) of the source. -/
def triples (n : ℕ) : List (ℕ × ℕ × ℕ) :=
  (List.range n).flatMap fun k =>
    (List.range n).flatMap fun i =>
      (List.range n).map fun j => (k, i, j)

/-- Floyd-Warshall all pairs shortest path, translated from allpairsp in
src/Algorithms/allpairsp.py.  The argument n = 0 plays the role of the Python
default (if not n: n = len(W)).  D starts as a deep copy of W and P as an
n x n matrix of the infinite sentinel; the result is none exactly when the
Python code would raise an IndexError. -/
def allpairsp (W : List (List Val)) (n : ℕ) :
    Option (List (List Val) × List (List Val)) :=
  (triples (if n = 0 then W.length else n)).foldlM
    (fun DP t => relax DP t.1 t.2.1 t.2.2)
    (W, List.replicate (if n = 0 then W.length else n)
      (List.replicate (if n = 0 then W.length else n) inf))

/-- Path reconstruction get_int_path from the source, with the printed
intermediate vertices collected into a list in print order.  The fuel
argument bounds the recursion depth; none models either nontermination of
the Python recursion or an IndexError. -/
def get_int_path (P : List (List Val)) : ℕ → ℕ → ℕ → Option (List ℕ)
  | 0, _, _ => none
  | fuel + 1, i, j =>
    match idx P i j with
    | none => none
    | some v =>
      if v = inf then some []
      else
        (get_int_path P fuel i v.toNat).bind fun l =>
          (get_int_path P fuel v.toNat j).map fun r => l ++ v.toNat :: r

/-- The 5 x 5 demonstration matrix W from the main block of the source. -/
def W : List (List Val) :=
  [[0, 1, inf, 1, 5],
   [9, 0, 3, 2, inf],
   [inf, inf, 0, 4, inf],
   [inf, inf, 2, 0, 3],
   [3, inf, inf, inf, 0]]

/-- A matrix is square when every row is as long as the list of rows. -/
def Square (M : List (List Val)) : Prop :=
  ∀ row ∈ M, row.length = M.length

/-- Zero on the diagonal. -/
def ZeroDiag (M : List (List Val)) : Prop :=
  ∀ i, i < M.length → idx M i i = some 0

instance (M : List (List Val)) : Decidable (Square M) :=
  decidable_of_iff (∀ row ∈ M, row.length = M.length) Iff.rfl

instance (M : List (List Val)) : Decidable (ZeroDiag M) :=
  decidable_of_iff (∀ i, i < M.length → idx M i i = some 0) Iff.rfl

/-- Weight of the walk i, vs 0, ..., vs last, j: the sum of the edge weights
of consecutive pairs read from the weight function Wf. -/
def chainW (Wf : ℕ → ℕ → Val) : ℕ → List ℕ → ℕ → Val
  | i, [], j => Wf i j
  | i, v :: vs, j => Wf i v + chainW Wf v vs j

/-- Interior vertex sequences of all simple directed paths from i to j over
the vertex set 0..n-1: duplicate free lists over range n avoiding i and j. -/
def pathCands (n i j : ℕ) : List (List ℕ) :=
  ((List.range n).sublists.flatMap List.permutations).filter
    fun vs => decide (i ∉ vs ∧ j ∉ vs)

/-- Written to the specification wording: the length of a shortest directed
path from vertex i to vertex j (the minimum, over all simple directed paths
from i to j inside the vertex set 0..n-1, of the sum of the edge weights on
consecutive pairs; the infinite sentinel when no path exists). -/
def shortestDist (Wf : ℕ → ℕ → Val) (n i j : ℕ) : Val :=
  ((pathCands n i j).map fun vs => chainW Wf i vs j).foldr min ⊤

/-- Functional view of the two working matrices of the engine, used to state
and prove the loop invariants; it is connected to the list level allpairsp by
a proved refinement. -/
structure FWS where
  D : ℕ → ℕ → Val
  P : ℕ → ℕ → Val

/-- Pointwise update of a curried matrix. -/
def upd2 (f : ℕ → ℕ → Val) (i j : ℕ) (v : Val) : ℕ → ℕ → Val :=
  fun a b => if a = i ∧ b = j then v else f a b

/-- The relaxation body at the functional level. -/
def stepF (k : ℕ) (s : FWS) (i j : ℕ) : FWS :=
  if s.D i k + s.D k j < s.D i j then
    ⟨upd2 s.D i j (s.D i k + s.D k j), upd2 s.P i j (k : ℕ∞)⟩
  else s

/-- itertools.product(range(n), range(n)) in the order (i, j). -/
def pairs (n : ℕ) : List (ℕ × ℕ) :=
  (List.range n).flatMap fun i => (List.range n).map fun j => (i, j)

/-- All relaxations for one fixed candidate intermediate vertex k. -/
def passF (n k : ℕ) (s : FWS) : FWS :=
  (pairs n).foldl (fun s p => stepF k s p.1 p.2) s

/-- The whole triple loop at the functional level: k outermost. -/
def runF (n : ℕ) (s : FWS) : FWS :=
  (List.range n).foldl (fun s k => passF n k s) s

/-- The weight matrix as a total function (cells outside the matrix read as
the infinite sentinel; they are never relevant on square input). -/
def Wfun (Wm : List (List Val)) : ℕ → ℕ → Val :=
  fun i j => (idx Wm i j).getD inf

/-- Initial functional state: D is (a copy of) W, P is all infinite. -/
def initF (Wm : List (List Val)) : FWS :=
  ⟨Wfun Wm, fun _ _ => inf⟩

/-- Program state carrying the callers matrix W alongside the working
matrices, to express that the loop never writes the W component. -/
structure PState where
  W : List (List Val)
  D : List (List Val)
  P : List (List Val)
deriving DecidableEq

/-- The relaxation body acting on the full program state: it reads and
writes only the D and P components. -/
def relaxS (s : PState) (k i j : ℕ) : Option PState :=
  match idx s.D i k, idx s.D k j, idx s.D i j with
  | some a, some b, some c =>
      if a + b < c then
        some ⟨s.W, setM s.D i j (a + b), setM s.P i j (k : ℕ∞)⟩
      else some s
  | _, _, _ => none

/-- allpairsp with the callers matrix W kept in the state, so that the frame
property (W is never mutated) can be stated. -/
def allpairspS (Wm : List (List Val)) (n : ℕ) : Option PState :=
  (triples (if n = 0 then Wm.length else n)).foldlM
    (fun s t => relaxS s t.1 t.2.1 t.2.2)
    ⟨Wm, Wm, List.replicate (if n = 0 then Wm.length else n)
      (List.replicate (if n = 0 then Wm.length else n) inf)⟩

/-- Length of row i of a matrix (empty when the row does not exist). -/
def RowLen (M : List (List Val)) (i : ℕ) : ℕ := (M.getD i []).length

lemma getD_eq_getElem (M : List (List Val)) (i : ℕ) (h : i < M.length) :
    M.getD i [] = M[i] := by
  rw [List.getD_eq_getElem?_getD, List.getElem?_eq_getElem h, Option.getD_some]

lemma idx_eq_rowGet (M : List (List Val)) (i j : ℕ) (h : i < M.length) :
    idx M i j = (M.getD i [])[j]? := by
  rw [idx, List.getElem?_eq_getElem h, Option.some_bind, getD_eq_getElem M i h]

lemma idx_eq_none_left (M : List (List Val)) (i j : ℕ) (h : M.length ≤ i) :
    idx M i j = none := by
  rw [idx, List.getElem?_eq_none h, Option.none_bind]

lemma idx_isSome (M : List (List Val)) (i j : ℕ) :
    (idx M i j).isSome ↔ i < M.length ∧ j < RowLen M i := by
  rcases Nat.lt_or_ge i M.length with hi | hi
  · rw [idx_eq_rowGet M i j hi, RowLen]
    rcases Nat.lt_or_ge j (M.getD i []).length with hj | hj
    · rw [List.getElem?_eq_getElem hj]
      rw [getD_eq_getElem M i hi] at hj
      simp [hi, hj, getD_eq_getElem M i hi]
    · rw [List.getElem?_eq_none hj]
      rw [getD_eq_getElem M i hi] at hj
      simp only [Option.isSome_none, Bool.false_eq_true, false_iff, not_and,
        Nat.not_lt, List.getD_eq_getElem?_getD, List.getElem?_eq_getElem hi,
        Option.getD_some]
      intro
      exact hj
  · rw [idx_eq_none_left M i j hi]
    simp [Nat.not_lt_of_le hi]

lemma idx_isSome_of_lt (M : List (List Val)) (i j : ℕ)
    (hi : i < M.length) (hj : j < RowLen M i) : (idx M i j).isSome :=
  (idx_isSome M i j).2 ⟨hi, hj⟩

lemma length_setM (M : List (List Val)) (i j : ℕ) (v : Val) :
    (setM M i j v).length = M.length := List.length_set ..

lemma rowLen_setM (M : List (List Val)) (i j : ℕ) (v : Val) (a : ℕ) :
    RowLen (setM M i j v) a = RowLen M a := by
  unfold RowLen setM
  rw [List.getD_eq_getElem?_getD, List.getD_eq_getElem?_getD, List.getElem?_set]
  rcases eq_or_ne i a with rfl | hne
  · rcases Nat.lt_or_ge i M.length with hi | hi
    · simp [hi, List.getElem?_eq_getElem hi, getD_eq_getElem M i hi]
    · simp [Nat.not_lt_of_le hi, List.getElem?_eq_none hi]
  · simp [hne]

lemma idx_setM_self (M : List (List Val)) (i j : ℕ) (v : Val)
    (hi : i < M.length) (hj : j < RowLen M i) :
    idx (setM M i j v) i j = some v := by
  have hlen : i < (setM M i j v).length := by rw [length_setM]; exact hi
  rw [idx_eq_rowGet _ i j hlen]
  unfold setM
  rw [RowLen, getD_eq_getElem M i hi] at hj
  simp [List.getD_eq_getElem?_getD, List.getElem?_set, hi, hj,
    List.getElem?_eq_getElem hj, getD_eq_getElem M i hi]

lemma idx_setM_ne (M : List (List Val)) (i j a b : ℕ) (v : Val)
    (h : ¬(a = i ∧ b = j)) : idx (setM M i j v) a b = idx M a b := by
  rcases eq_or_ne a i with rfl | hne
  · have hb : b ≠ j := fun hb => h ⟨rfl, hb⟩
    rcases Nat.lt_or_ge a M.length with hi | hi
    · have hi' : a < (setM M a j v).length := by rw [length_setM]; exact hi
      rw [idx_eq_rowGet _ a b hi', idx_eq_rowGet _ a b hi]
      unfold setM
      simp [List.getD_eq_getElem?_getD, List.getElem?_set, hi,
        List.getElem?_set_ne (Ne.symm hb), getD_eq_getElem M a hi]
    · have hi' : (setM M a j v).length ≤ a := by rw [length_setM]; exact hi
      rw [idx_eq_none_left _ a b hi', idx_eq_none_left M a b hi]
  · unfold idx setM
    rw [List.getElem?_set_ne (fun hia => hne (hia.symm))]

lemma mem_triples (n : ℕ) (t : ℕ × ℕ × ℕ) :
    t ∈ triples n ↔ t.1 < n ∧ t.2.1 < n ∧ t.2.2 < n := by
  obtain ⟨k, i, j⟩ := t
  simp only [triples, List.mem_flatMap, List.mem_map, List.mem_range, Prod.mk.injEq]
  constructor
  · rintro ⟨a, ha, b, hb, c, hc, rfl, rfl, rfl⟩
    exact ⟨ha, hb, hc⟩
  · rintro ⟨hk, hi, hj⟩
    exact ⟨k, hk, i, hi, j, hj, rfl, rfl, rfl⟩

lemma mem_pairs (n : ℕ) (p : ℕ × ℕ) :
    p ∈ pairs n ↔ p.1 < n ∧ p.2 < n := by
  obtain ⟨i, j⟩ := p
  simp [pairs, List.mem_flatMap, List.mem_map, List.mem_range]

/-- All reads of one relaxation pass stay inside the matrix when the first m
rows exist and each has at least m entries. -/
def ReadOK (m : ℕ) (M : List (List Val)) : Prop :=
  m ≤ M.length ∧ ∀ i, i < m → m ≤ RowLen M i

instance (m : ℕ) (M : List (List Val)) : Decidable (ReadOK m M) :=
  decidable_of_iff (m ≤ M.length ∧ ∀ i, i < m → m ≤ RowLen M i) Iff.rfl

lemma relax_shape {DP DP' : List (List Val) × List (List Val)} {k i j : ℕ}
    (h : relax DP k i j = some DP') :
    DP'.1.length = DP.1.length ∧ (∀ a, RowLen DP'.1 a = RowLen DP.1 a) ∧
    DP'.2.length = DP.2.length ∧ (∀ a, RowLen DP'.2 a = RowLen DP.2 a) := by
  unfold relax at h
  split at h
  · split at h
    · cases h
      exact ⟨length_setM .., fun a => rowLen_setM .., length_setM ..,
        fun a => rowLen_setM ..⟩
    · cases h
      exact ⟨rfl, fun _ => rfl, rfl, fun _ => rfl⟩
  · cases h

lemma relax_isSome {DP : List (List Val) × List (List Val)} {k i j : ℕ} :
    (relax DP k i j).isSome ↔
      (idx DP.1 i k).isSome ∧ (idx DP.1 k j).isSome ∧ (idx DP.1 i j).isSome := by
  unfold relax
  rcases hik : idx DP.1 i k with _ | a <;>
    rcases hkj : idx DP.1 k j with _ | b <;>
    rcases hij : idx DP.1 i j with _ | c <;> simp
  split <;> simp

lemma idx_isSome_congr {M M' : List (List Val)} (hlen : M'.length = M.length)
    (hrow : ∀ a, RowLen M' a = RowLen M a) (a b : ℕ) :
    (idx M' a b).isSome ↔ (idx M a b).isSome := by
  rw [idx_isSome, idx_isSome, hlen, hrow]

lemma foldlM_relax_some (m : ℕ) :
    ∀ l : List (ℕ × ℕ × ℕ), (∀ t ∈ l, t.1 < m ∧ t.2.1 < m ∧ t.2.2 < m) →
    ∀ DP : List (List Val) × List (List Val), ReadOK m DP.1 →
    ∃ DP', List.foldlM (fun DP t => relax DP t.1 t.2.1 t.2.2) DP l = some DP' ∧
      DP'.1.length = DP.1.length ∧ (∀ a, RowLen DP'.1 a = RowLen DP.1 a) ∧
      DP'.2.length = DP.2.length ∧ (∀ a, RowLen DP'.2 a = RowLen DP.2 a) := by
  intro l
  induction l with
  | nil =>
    intro _ DP _
    exact ⟨DP, rfl, rfl, fun _ => rfl, rfl, fun _ => rfl⟩
  | cons t l ih =>
    intro hb DP hok
    obtain ⟨hk, hi, hj⟩ := hb t (List.mem_cons_self ..)
    have h1 : (idx DP.1 t.2.1 t.1).isSome :=
      idx_isSome_of_lt _ _ _ (lt_of_lt_of_le hi hok.1)
        (lt_of_lt_of_le hk (hok.2 _ hi))
    have h2 : (idx DP.1 t.1 t.2.2).isSome :=
      idx_isSome_of_lt _ _ _ (lt_of_lt_of_le hk hok.1)
        (lt_of_lt_of_le hj (hok.2 _ hk))
    have h3 : (idx DP.1 t.2.1 t.2.2).isSome :=
      idx_isSome_of_lt _ _ _ (lt_of_lt_of_le hi hok.1)
        (lt_of_lt_of_le hj (hok.2 _ hi))
    obtain ⟨DP1, hDP1⟩ :=
      Option.isSome_iff_exists.1 (relax_isSome.2 ⟨h1, h2, h3⟩)
    obtain ⟨e1, e2, e3, e4⟩ := relax_shape hDP1
    have hok1 : ReadOK m DP1.1 :=
      ⟨e1 ▸ hok.1, fun i hi => (e2 i) ▸ hok.2 i hi⟩
    obtain ⟨DP', hfold, f1, f2, f3, f4⟩ :=
      ih (fun t ht => hb t (List.mem_cons_of_mem _ ht)) DP1 hok1
    refine ⟨DP', ?_, f1.trans e1, fun a => (f2 a).trans (e2 a),
      f3.trans e3, fun a => (f4 a).trans (e4 a)⟩
    rw [List.foldlM_cons, hDP1]
    exact hfold

lemma foldlM_relax_none :
    ∀ l : List (ℕ × ℕ × ℕ), ∀ DP : List (List Val) × List (List Val),
    (∃ t ∈ l, ¬((idx DP.1 t.2.1 t.1).isSome ∧ (idx DP.1 t.1 t.2.2).isSome ∧
      (idx DP.1 t.2.1 t.2.2).isSome)) →
    List.foldlM (fun DP t => relax DP t.1 t.2.1 t.2.2) DP l = none := by
  intro l
  induction l with
  | nil =>
    rintro DP ⟨t, ht, _⟩
    cases ht
  | cons t0 l ih =>
    rintro DP ⟨t, ht, hbad⟩
    rcases List.mem_cons.1 ht with rfl | htl
    · have hrel : relax DP t.1 t.2.1 t.2.2 = none := by
        cases hrel : relax DP t.1 t.2.1 t.2.2 with
        | none => rfl
        | some DP1 =>
          exact absurd (relax_isSome.1 (by rw [hrel]; rfl)) hbad
      rw [List.foldlM_cons, hrel]
      rfl
    · cases hrel : relax DP t0.1 t0.2.1 t0.2.2 with
      | none =>
        rw [List.foldlM_cons, hrel]
        rfl
      | some DP1 =>
        obtain ⟨e1, e2, _, _⟩ := relax_shape hrel
        have hbad1 : ¬((idx DP1.1 t.2.1 t.1).isSome ∧
            (idx DP1.1 t.1 t.2.2).isSome ∧ (idx DP1.1 t.2.1 t.2.2).isSome) := by
          intro hc
          exact hbad ⟨(idx_isSome_congr e1 e2 _ _).1 hc.1,
            (idx_isSome_congr e1 e2 _ _).1 hc.2.1,
            (idx_isSome_congr e1 e2 _ _).1 hc.2.2⟩
        rw [List.foldlM_cons, hrel]
        exact ih DP1 ⟨t, htl, hbad1⟩

lemma allpairsp_eq_some_iff (Wm : List (List Val)) (n : ℕ) :
    (∃ DP, allpairsp Wm n = some DP) ↔
      ReadOK (if n = 0 then Wm.length else n) Wm := by
  constructor
  · rintro ⟨DP, hDP⟩
    by_contra hno
    rw [ReadOK, not_and_or] at hno
    have hnone : allpairsp Wm n = none := by
      unfold allpairsp
      apply foldlM_relax_none
      rcases hno with hlen | hrow
      · rw [Nat.not_le] at hlen
        refine ⟨(0, Wm.length, 0), ?_, ?_⟩
        · exact (mem_triples _ _).2 ⟨Nat.lt_of_le_of_lt (Nat.zero_le _) hlen,
            hlen, Nat.lt_of_le_of_lt (Nat.zero_le _) hlen⟩
        · intro hc
          rw [idx_isSome] at hc
          exact absurd hc.1.1 (lt_irrefl _)
      · push_neg at hrow
        obtain ⟨i0, hi0, hr⟩ := hrow
        refine ⟨(0, i0, RowLen Wm i0), ?_, ?_⟩
        · exact (mem_triples _ _).2 ⟨Nat.lt_of_le_of_lt (Nat.zero_le _) hr,
            hi0, hr⟩
        · intro hc
          rw [idx_isSome, idx_isSome, idx_isSome] at hc
          exact absurd hc.2.2.2 (lt_irrefl _)
    rw [hnone] at hDP
    cases hDP
  · intro hok
    unfold allpairsp
    obtain ⟨DP', hfold, _⟩ :=
      foldlM_relax_some _ (triples (if n = 0 then Wm.length else n))
        (fun t ht => (mem_triples _ t).1 ht)
        (Wm, List.replicate (if n = 0 then Wm.length else n)
          (List.replicate (if n = 0 then Wm.length else n) inf)) hok
    exact ⟨DP', hfold⟩

lemma rowLen_replicate (m : ℕ) (a : ℕ) (ha : a < m) :
    RowLen (List.replicate m (List.replicate m inf)) a = m := by
  rw [RowLen, List.getD_eq_getElem?_getD, List.getElem?_replicate, if_pos ha,
    Option.getD_some, List.length_replicate]

lemma allpairsp_shape {Wm : List (List Val)} {n : ℕ} {D P : List (List Val)}
    (h : allpairsp Wm n = some (D, P)) :
    D.length = Wm.length ∧ (∀ a, RowLen D a = RowLen Wm a) ∧
    P.length = (if n = 0 then Wm.length else n) ∧
    (∀ a, a < (if n = 0 then Wm.length else n) →
      RowLen P a = (if n = 0 then Wm.length else n)) := by
  have hok : ReadOK (if n = 0 then Wm.length else n) Wm :=
    (allpairsp_eq_some_iff Wm n).1 ⟨(D, P), h⟩
  obtain ⟨DP', hfold, f1, f2, f3, f4⟩ :=
    foldlM_relax_some _ (triples (if n = 0 then Wm.length else n))
      (fun t ht => (mem_triples _ t).1 ht)
      (Wm, List.replicate (if n = 0 then Wm.length else n)
        (List.replicate (if n = 0 then Wm.length else n) inf)) hok
  have hDP' : DP' = (D, P) := by
    rw [allpairsp] at h
    rw [hfold] at h
    cases h
    rfl
  rw [hDP'] at f1 f2 f3 f4
  refine ⟨f1, f2, ?_, ?_⟩
  · rw [f3, List.length_replicate]
  · intro a ha
    rw [f4 a, rowLen_replicate _ a ha]

lemma relaxS_W {s s' : PState} {k i j : ℕ} (h : relaxS s k i j = some s') :
    s'.W = s.W := by
  unfold relaxS at h
  split at h
  · split at h <;> cases h <;> rfl
  · cases h

lemma foldlM_relaxS_W :
    ∀ l : List (ℕ × ℕ × ℕ), ∀ s s' : PState,
    List.foldlM (fun s t => relaxS s t.1 t.2.1 t.2.2) s l = some s' →
    s'.W = s.W := by
  intro l
  induction l with
  | nil =>
    intro s s' h
    cases h
    rfl
  | cons t l ih =>
    intro s s' h
    rw [List.foldlM_cons] at h
    cases hrel : relaxS s t.1 t.2.1 t.2.2 with
    | none =>
      rw [hrel] at h
      cases h
    | some s1 =>
      rw [hrel] at h
      simp only [Option.bind_eq_bind, Option.some_bind] at h
      exact (ih s1 s' h).trans (relaxS_W hrel)

/-- Refinement relation between the list state and the functional state on
the n x n window. -/
def Rel (n : ℕ) (DP : List (List Val) × List (List Val)) (s : FWS) : Prop :=
  (∀ i j, i < n → j < n → idx DP.1 i j = some (s.D i j)) ∧
  (∀ i j, i < n → j < n → idx DP.2 i j = some (s.P i j))

lemma relax_refines {n : ℕ} {DP : List (List Val) × List (List Val)} {s : FWS}
    (hok1 : ReadOK n DP.1) (hok2 : ReadOK n DP.2) (hrel : Rel n DP s)
    {k i j : ℕ} (hk : k < n) (hi : i < n) (hj : j < n) :
    ∃ DP', relax DP k i j = some DP' ∧ ReadOK n DP'.1 ∧ ReadOK n DP'.2 ∧
      Rel n DP' (stepF k s i j) := by
  have rik := hrel.1 i k hi hk
  have rkj := hrel.1 k j hk hj
  have rij := hrel.1 i j hi hj
  unfold relax
  rw [rik, rkj, rij]
  dsimp only
  unfold stepF
  by_cases hcond : s.D i k + s.D k j < s.D i j
  · rw [if_pos hcond, if_pos hcond]
    have hi1 : i < DP.1.length := lt_of_lt_of_le hi hok1.1
    have hj1 : j < RowLen DP.1 i := lt_of_lt_of_le hj (hok1.2 i hi)
    have hi2 : i < DP.2.length := lt_of_lt_of_le hi hok2.1
    have hj2 : j < RowLen DP.2 i := lt_of_lt_of_le hj (hok2.2 i hi)
    refine ⟨_, rfl, ?_, ?_, ?_, ?_⟩
    · exact ⟨(length_setM ..).symm ▸ hok1.1,
        fun a ha => (rowLen_setM ..).symm ▸ hok1.2 a ha⟩
    · exact ⟨(length_setM ..).symm ▸ hok2.1,
        fun a ha => (rowLen_setM ..).symm ▸ hok2.2 a ha⟩
    · intro a b ha hb
      by_cases hab : a = i ∧ b = j
      · obtain ⟨rfl, rfl⟩ := hab
        rw [idx_setM_self _ _ _ _ hi1 hj1]
        simp [upd2]
      · rw [idx_setM_ne _ _ _ _ _ _ hab]
        have : upd2 s.D i j (s.D i k + s.D k j) a b = s.D a b := by
          simp [upd2, hab]
        dsimp only
        rw [this]
        exact hrel.1 a b ha hb
    · intro a b ha hb
      by_cases hab : a = i ∧ b = j
      · obtain ⟨rfl, rfl⟩ := hab
        rw [idx_setM_self _ _ _ _ hi2 hj2]
        simp [upd2]
      · rw [idx_setM_ne _ _ _ _ _ _ hab]
        have : upd2 s.P i j (k : ℕ∞) a b = s.P a b := by
          simp [upd2, hab]
        dsimp only
        rw [this]
        exact hrel.2 a b ha hb
  · rw [if_neg hcond, if_neg hcond]
    exact ⟨DP, rfl, hok1, hok2, hrel⟩

/-- stepF uncurried over a loop triple. -/
def stepT (s : FWS) (t : ℕ × ℕ × ℕ) : FWS := stepF t.1 s t.2.1 t.2.2

lemma foldlM_refines (n : ℕ) :
    ∀ l : List (ℕ × ℕ × ℕ), (∀ t ∈ l, t.1 < n ∧ t.2.1 < n ∧ t.2.2 < n) →
    ∀ DP s, ReadOK n DP.1 → ReadOK n DP.2 → Rel n DP s →
    ∃ DP', List.foldlM (fun DP t => relax DP t.1 t.2.1 t.2.2) DP l = some DP' ∧
      ReadOK n DP'.1 ∧ ReadOK n DP'.2 ∧ Rel n DP' (l.foldl stepT s) := by
  intro l
  induction l with
  | nil =>
    intro _ DP s h1 h2 h3
    exact ⟨DP, rfl, h1, h2, h3⟩
  | cons t l ih =>
    intro hb DP s h1 h2 h3
    obtain ⟨hk, hi, hj⟩ := hb t (List.mem_cons_self ..)
    obtain ⟨DP1, hDP1, g1, g2, g3⟩ := relax_refines h1 h2 h3 hk hi hj
    obtain ⟨DP', hfold, f1, f2, f3⟩ :=
      ih (fun t ht => hb t (List.mem_cons_of_mem _ ht)) DP1 (stepF t.1 s t.2.1 t.2.2)
        g1 g2 g3
    refine ⟨DP', ?_, f1, f2, f3⟩
    rw [List.foldlM_cons, hDP1]
    exact hfold

lemma foldl_flatMap {α β γ : Type} (l : List α) (f : α → List β)
    (g : γ → β → γ) (b : γ) :
    (l.flatMap f).foldl g b = l.foldl (fun acc a => (f a).foldl g acc) b := by
  induction l generalizing b with
  | nil => rfl
  | cons a l ih => rw [List.flatMap_cons, List.foldl_append, ih, List.foldl_cons]

lemma foldl_ext' {α β : Type} (f g : β → α → β) (l : List α)
    (h : ∀ b a, a ∈ l → f b a = g b a) : ∀ b, l.foldl f b = l.foldl g b := by
  induction l with
  | nil => intro b; rfl
  | cons a l ih =>
    intro b
    rw [List.foldl_cons, List.foldl_cons, h b a (List.mem_cons_self ..)]
    exact ih (fun b a ha => h b a (List.mem_cons_of_mem _ ha)) _

lemma foldl_triples_eq_runF (n : ℕ) (s : FWS) :
    (triples n).foldl stepT s = runF n s := by
  unfold triples runF
  rw [foldl_flatMap]
  apply foldl_ext'
  intro b k _
  unfold passF pairs
  rw [foldl_flatMap, foldl_flatMap]
  apply foldl_ext'
  intro c i _
  rw [List.foldl_map, List.foldl_map]
  rfl

lemma square_readOK {Wm : List (List Val)} (hsq : Square Wm) :
    ReadOK Wm.length Wm := by
  refine ⟨le_refl _, fun i hi => ?_⟩
  rw [RowLen, getD_eq_getElem Wm i hi, hsq Wm[i] (List.getElem_mem hi)]

lemma replicate_readOK (m : ℕ) :
    ReadOK m (List.replicate m (List.replicate m inf)) := by
  refine ⟨(List.length_replicate ..).symm.le, fun i hi => ?_⟩
  rw [rowLen_replicate m i hi]

/-- Running allpairsp on a square matrix succeeds and the result windows are
the functional run. -/
lemma allpairsp_run {Wm : List (List Val)} (hsq : Square Wm) :
    ∃ D P, allpairsp Wm 0 = some (D, P) ∧
      ∀ i j, i < Wm.length → j < Wm.length →
        idx D i j = some ((runF Wm.length (initF Wm)).D i j) ∧
        idx P i j = some ((runF Wm.length (initF Wm)).P i j) := by
  have hrel0 : Rel Wm.length
      (Wm, List.replicate Wm.length (List.replicate Wm.length inf))
      (initF Wm) := by
    constructor
    · intro i j hi hj
      have hs : (idx Wm i j).isSome :=
        idx_isSome_of_lt _ _ _ (lt_of_lt_of_le hi (square_readOK hsq).1)
          (lt_of_lt_of_le hj ((square_readOK hsq).2 i hi))
      obtain ⟨v, hv⟩ := Option.isSome_iff_exists.1 hs
      rw [hv]
      simp [initF, Wfun, hv]
    · intro i j hi hj
      have hi' : i < (List.replicate Wm.length
          (List.replicate Wm.length inf)).length := by
        rw [List.length_replicate]; exact hi
      rw [idx_eq_rowGet _ i j hi', List.getD_eq_getElem?_getD,
        List.getElem?_replicate, if_pos hi, Option.getD_some,
        List.getElem?_replicate, if_pos hj]
      rfl
  obtain ⟨DP', hfold, _, _, hrel⟩ :=
    foldlM_refines Wm.length (triples Wm.length)
      (fun t ht => (mem_triples _ t).1 ht)
      (Wm, List.replicate Wm.length (List.replicate Wm.length inf))
      (initF Wm) (square_readOK hsq) (replicate_readOK _) hrel0
  rw [foldl_triples_eq_runF] at hrel
  refine ⟨DP'.1, DP'.2, ?_, fun i j hi hj => ⟨hrel.1 i j hi hj, hrel.2 i j hi hj⟩⟩
  unfold allpairsp
  rw [if_pos rfl]
  rw [hfold]

/-- The value of a D cell after the pass for intermediate k, in terms of the
state at the start of the pass. -/
def tD (s : FWS) (k i j : ℕ) : Val :=
  if s.D i k + s.D k j < s.D i j then s.D i k + s.D k j else s.D i j

/-- The value of a P cell after the pass for intermediate k. -/
def tP (s : FWS) (k i j : ℕ) : Val :=
  if s.D i k + s.D k j < s.D i j then (k : ℕ∞) else s.P i j

lemma tD_row (s : FWS) (k i : ℕ) : tD s k i k = s.D i k :=
  if_neg (not_lt.2 le_self_add)

lemma tD_col (s : FWS) (k j : ℕ) : tD s k k j = s.D k j :=
  if_neg (not_lt.2 le_add_self)

lemma tP_row (s : FWS) (k i : ℕ) : tP s k i k = s.P i k :=
  if_neg (not_lt.2 le_self_add)

lemma tP_col (s : FWS) (k j : ℕ) : tP s k k j = s.P k j :=
  if_neg (not_lt.2 le_add_self)

lemma tD_le (s : FWS) (k i j : ℕ) : tD s k i j ≤ s.D i j := by
  unfold tD
  split
  · exact le_of_lt (by assumption)
  · exact le_refl _

lemma tD_le_cand (s : FWS) (k i j : ℕ) : tD s k i j ≤ s.D i k + s.D k j := by
  unfold tD
  split
  · exact le_refl _
  · exact le_of_not_lt (by assumption)

/-- During the pass for k, each cell holds either its start of pass value or
its end of pass value. -/
def MixCell (s s' : FWS) (k i j : ℕ) : Prop :=
  (s'.D i j = s.D i j ∧ s'.P i j = s.P i j) ∨
  (s'.D i j = tD s k i j ∧ s'.P i j = tP s k i j)

lemma mix_D_row {s s' : FWS} {k : ℕ} (h : ∀ a b, MixCell s s' k a b) (i : ℕ) :
    s'.D i k = s.D i k := by
  rcases h i k with ⟨hD, _⟩ | ⟨hD, _⟩
  · exact hD
  · rw [hD, tD_row]

lemma mix_D_col {s s' : FWS} {k : ℕ} (h : ∀ a b, MixCell s s' k a b) (j : ℕ) :
    s'.D k j = s.D k j := by
  rcases h k j with ⟨hD, _⟩ | ⟨hD, _⟩
  · exact hD
  · rw [hD, tD_col]

lemma stepF_cell (s s' : FWS) (k i j : ℕ) (hmix : ∀ a b, MixCell s s' k a b) :
    (∀ a b, MixCell s (stepF k s' i j) k a b) ∧
    ((stepF k s' i j).D i j = tD s k i j ∧ (stepF k s' i j).P i j = tP s k i j) ∧
    (∀ a b, ¬(a = i ∧ b = j) →
      (stepF k s' i j).D a b = s'.D a b ∧ (stepF k s' i j).P a b = s'.P a b) := by
  have hik : s'.D i k = s.D i k := mix_D_row hmix i
  have hkj : s'.D k j = s.D k j := mix_D_col hmix j
  unfold stepF
  rw [hik, hkj]
  rcases hmix i j with ⟨hD, hP⟩ | ⟨hD, hP⟩
  · rw [hD]
    by_cases hcond : s.D i k + s.D k j < s.D i j
    · rw [if_pos hcond]
      refine ⟨?_, ?_, ?_⟩
      · intro a b
        by_cases hab : a = i ∧ b = j
        · obtain ⟨rfl, rfl⟩ := hab
          right
          constructor
          · show upd2 s'.D a b (s.D a k + s.D k b) a b = tD s k a b
            rw [upd2, if_pos ⟨rfl, rfl⟩, tD, if_pos hcond]
          · show upd2 s'.P a b (k : ℕ∞) a b = tP s k a b
            rw [upd2, if_pos ⟨rfl, rfl⟩, tP, if_pos hcond]
        · have e1 : upd2 s'.D i j (s.D i k + s.D k j) a b = s'.D a b := by
            rw [upd2, if_neg hab]
          have e2 : upd2 s'.P i j (k : ℕ∞) a b = s'.P a b := by
            rw [upd2, if_neg hab]
          rcases hmix a b with ⟨m1, m2⟩ | ⟨m1, m2⟩
          · exact Or.inl ⟨e1.trans m1, e2.trans m2⟩
          · exact Or.inr ⟨e1.trans m1, e2.trans m2⟩
      · constructor
        · show upd2 s'.D i j (s.D i k + s.D k j) i j = tD s k i j
          rw [upd2, if_pos ⟨rfl, rfl⟩, tD, if_pos hcond]
        · show upd2 s'.P i j (k : ℕ∞) i j = tP s k i j
          rw [upd2, if_pos ⟨rfl, rfl⟩, tP, if_pos hcond]
      · intro a b hab
        constructor
        · show upd2 s'.D i j (s.D i k + s.D k j) a b = s'.D a b
          rw [upd2, if_neg hab]
        · show upd2 s'.P i j (k : ℕ∞) a b = s'.P a b
          rw [upd2, if_neg hab]
    · rw [if_neg hcond]
      refine ⟨hmix, ⟨?_, ?_⟩, fun a b _ => ⟨rfl, rfl⟩⟩
      · rw [hD, tD, if_neg hcond]
      · rw [hP, tP, if_neg hcond]
  · rw [hD]
    have hnot : ¬ s.D i k + s.D k j < tD s k i j := by
      unfold tD
      split
      · exact lt_irrefl _
      · assumption
    rw [if_neg hnot]
    exact ⟨hmix, ⟨hD, hP⟩, fun a b _ => ⟨rfl, rfl⟩⟩

lemma passF_fold (s : FWS) (k : ℕ) :
    ∀ l : List (ℕ × ℕ), ∀ s', (∀ a b, MixCell s s' k a b) →
    (∀ a b, MixCell s (l.foldl (fun s p => stepF k s p.1 p.2) s') k a b) ∧
    (∀ a b, (s'.D a b = tD s k a b ∧ s'.P a b = tP s k a b) →
      ((l.foldl (fun s p => stepF k s p.1 p.2) s').D a b = tD s k a b ∧
       (l.foldl (fun s p => stepF k s p.1 p.2) s').P a b = tP s k a b)) ∧
    (∀ p ∈ l, (l.foldl (fun s p => stepF k s p.1 p.2) s').D p.1 p.2 = tD s k p.1 p.2 ∧
      (l.foldl (fun s p => stepF k s p.1 p.2) s').P p.1 p.2 = tP s k p.1 p.2) := by
  intro l
  induction l with
  | nil =>
    intro s' hmix
    refine ⟨hmix, fun a b h => h, fun p hp => absurd hp (List.not_mem_nil _)⟩
  | cons q l ih =>
    intro s' hmix
    obtain ⟨hmix', hq, hother⟩ := stepF_cell s s' k q.1 q.2 hmix
    obtain ⟨f1, f2, f3⟩ := ih (stepF k s' q.1 q.2) hmix'
    have hpres : ∀ a b, (s'.D a b = tD s k a b ∧ s'.P a b = tP s k a b) →
        ((stepF k s' q.1 q.2).D a b = tD s k a b ∧
         (stepF k s' q.1 q.2).P a b = tP s k a b) := by
      intro a b hab
      by_cases he : a = q.1 ∧ b = q.2
      · obtain ⟨rfl, rfl⟩ := he
        exact hq
      · obtain ⟨e1, e2⟩ := hother a b he
        exact ⟨e1.trans hab.1, e2.trans hab.2⟩
    rw [List.foldl_cons]
    refine ⟨f1, fun a b hab => f2 a b (hpres a b hab), ?_⟩
    intro p hp
    rcases List.mem_cons.1 hp with rfl | hpl
    · exact f2 p.1 p.2 hq
    · exact f3 p hpl

lemma passF_spec (n k : ℕ) (s : FWS) (i j : ℕ) (hi : i < n) (hj : j < n) :
    (passF n k s).D i j = tD s k i j ∧ (passF n k s).P i j = tP s k i j := by
  have hmix0 : ∀ a b, MixCell s s k a b := fun a b => Or.inl ⟨rfl, rfl⟩
  obtain ⟨_, _, f3⟩ := passF_fold s k (pairs n) s hmix0
  exact f3 (i, j) ((mem_pairs n (i, j)).2 ⟨hi, hj⟩)

lemma chainW_nil (Wf : ℕ → ℕ → Val) (i j : ℕ) : chainW Wf i [] j = Wf i j := rfl

lemma chainW_cons (Wf : ℕ → ℕ → Val) (i v : ℕ) (vs : List ℕ) (j : ℕ) :
    chainW Wf i (v :: vs) j = Wf i v + chainW Wf v vs j := rfl

lemma chainW_append (Wf : ℕ → ℕ → Val) (i : ℕ) (vs1 : List ℕ) (k : ℕ)
    (vs2 : List ℕ) (j : ℕ) :
    chainW Wf i (vs1 ++ k :: vs2) j = chainW Wf i vs1 k + chainW Wf k vs2 j := by
  induction vs1 generalizing i with
  | nil => rw [List.nil_append, chainW_cons, chainW_nil]
  | cons v vs ih =>
    rw [List.cons_append, chainW_cons, chainW_cons, ih, add_assoc]

lemma exists_split_first {vs : List ℕ} {k : ℕ} (h : k ∈ vs) :
    ∃ vs1 vs2, vs = vs1 ++ k :: vs2 ∧ k ∉ vs1 := by
  induction vs with
  | nil => cases h
  | cons v vs ih =>
    by_cases hv : v = k
    · subst hv
      exact ⟨[], vs, rfl, List.not_mem_nil _⟩
    · have hk : k ∈ vs := by
        rcases List.mem_cons.1 h with h1 | h2
        · exact absurd h1.symm hv
        · exact h2
      obtain ⟨vs1, vs2, rfl, hn⟩ := ih hk
      refine ⟨v :: vs1, vs2, rfl, ?_⟩
      intro hmem
      rcases List.mem_cons.1 hmem with h1 | h2
      · exact hv h1.symm
      · exact hn h2

lemma exists_dup_split {vs : List ℕ} (h : ¬ vs.Nodup) :
    ∃ (a : ℕ) (l1 l2 l3 : List ℕ), vs = l1 ++ a :: (l2 ++ a :: l3) := by
  induction vs with
  | nil => exact absurd List.nodup_nil h
  | cons v vs ih =>
    by_cases hv : v ∈ vs
    · obtain ⟨s, t, rfl⟩ := List.append_of_mem hv
      exact ⟨v, [], s, t, rfl⟩
    · have hvs : ¬ vs.Nodup := by
        intro hn
        exact h (List.nodup_cons.2 ⟨hv, hn⟩)
      obtain ⟨a, l1, l2, l3, rfl⟩ := ih hvs
      exact ⟨a, v :: l1, l2, l3, rfl⟩

/-- The recorded intermediate of a cell is the sentinel or an index below b. -/
def PB (s : FWS) (i j b : ℕ) : Prop :=
  s.P i j = inf ∨ ∃ m : ℕ, s.P i j = (m : ℕ∞) ∧ m < b

/-- Lower bound invariant: after the passes for intermediates below k, every
D cell is at most the weight of every walk whose interior vertices are below
k. -/
def Low (Wf : ℕ → ℕ → Val) (n k : ℕ) (s : FWS) : Prop :=
  ∀ i j, i < n → j < n → ∀ vs : List ℕ, (∀ v ∈ vs, v < n) →
    (∀ v ∈ vs, v < k) → s.D i j ≤ chainW Wf i vs j

/-- Achievability invariant: every D cell is the weight of some walk whose
interior vertices are below k. -/
def High (Wf : ℕ → ℕ → Val) (n k : ℕ) (s : FWS) : Prop :=
  ∀ i j, i < n → j < n → ∃ vs : List ℕ, (∀ v ∈ vs, v < n) ∧
    (∀ v ∈ vs, v < k) ∧ chainW Wf i vs j = s.D i j

/-- Reconstruction invariant: each P cell is the sentinel with D holding the
direct edge weight, or a strictly interior vertex m below k whose two half
distances decompose D, with the sub records bounded below m. -/
def Pdec (Wf : ℕ → ℕ → Val) (n k : ℕ) (s : FWS) : Prop :=
  ∀ i j, i < n → j < n →
    (s.P i j = inf ∧ s.D i j = Wf i j) ∨
    ∃ m : ℕ, m < k ∧ m < n ∧ m ≠ i ∧ m ≠ j ∧ s.P i j = (m : ℕ∞) ∧
      s.D i j = s.D i m + s.D m j ∧ s.D i j ≠ inf ∧ PB s i m m ∧ PB s m j m

/-- The full loop invariant at pass boundary k. -/
def Inv (Wf : ℕ → ℕ → Val) (n k : ℕ) (s : FWS) : Prop :=
  Low Wf n k s ∧ High Wf n k s ∧ Pdec Wf n k s

lemma Inv_zero (Wf : ℕ → ℕ → Val) (n : ℕ) :
    Inv Wf n 0 ⟨Wf, fun _ _ => inf⟩ := by
  refine ⟨?_, ?_, ?_⟩
  · intro i j _ _ vs _ hvk
    cases vs with
    | nil => exact le_refl _
    | cons v vs => exact absurd (hvk v (List.mem_cons_self ..)) (Nat.not_lt_zero v)
  · intro i j _ _
    exact ⟨[], fun v hv => absurd hv (List.not_mem_nil _),
      fun v hv => absurd hv (List.not_mem_nil _), rfl⟩
  · intro i j _ _
    exact Or.inl ⟨rfl, rfl⟩

lemma Inv_step (Wf : ℕ → ℕ → Val) (n k : ℕ) (hk : k < n) (s : FWS)
    (h : Inv Wf n k s) : Inv Wf n (k + 1) (passF n k s) := by
  obtain ⟨hlow, hhigh, hpdec⟩ := h
  have hD : ∀ i j, i < n → j < n → (passF n k s).D i j = tD s k i j :=
    fun i j hi hj => (passF_spec n k s i j hi hj).1
  have hP : ∀ i j, i < n → j < n → (passF n k s).P i j = tP s k i j :=
    fun i j hi hj => (passF_spec n k s i j hi hj).2
  refine ⟨?_, ?_, ?_⟩
  · -- Low at k+1
    have key : ∀ L : ℕ, ∀ vs : List ℕ, vs.length ≤ L → ∀ i j, i < n → j < n →
        (∀ v ∈ vs, v < n) → (∀ v ∈ vs, v < k + 1) →
        tD s k i j ≤ chainW Wf i vs j := by
      intro L
      induction L with
      | zero =>
        intro vs hlen i j hi hj hvn hvk
        have hnil : vs = [] := List.eq_nil_of_length_eq_zero (Nat.le_zero.1 hlen)
        subst hnil
        exact le_trans (tD_le s k i j)
          (hlow i j hi hj [] (fun v hv => absurd hv (List.not_mem_nil _))
            (fun v hv => absurd hv (List.not_mem_nil _)))
      | succ L ih =>
        intro vs hlen i j hi hj hvn hvk
        by_cases hkin : k ∈ vs
        · obtain ⟨vs1, vs2, rfl, hknot⟩ := exists_split_first hkin
          rw [chainW_append]
          have hv1n : ∀ v ∈ vs1, v < n :=
            fun v hv => hvn v (List.mem_append_left _ hv)
          have hv1k : ∀ v ∈ vs1, v < k := by
            intro v hv
            have hle : v < k + 1 := hvk v (List.mem_append_left _ hv)
            exact lt_of_le_of_ne (Nat.lt_succ_iff.1 hle)
              (fun he => hknot (he ▸ hv))
          have h1 : s.D i k ≤ chainW Wf i vs1 k := hlow i k hi hk vs1 hv1n hv1k
          have hlen2 : vs2.length ≤ L := by
            rw [List.length_append, List.length_cons] at hlen
            omega
          have h2 : tD s k k j ≤ chainW Wf k vs2 j :=
            ih vs2 hlen2 k j hk hj
              (fun v hv => hvn v (List.mem_append_right _ (List.mem_cons_of_mem _ hv)))
              (fun v hv => hvk v (List.mem_append_right _ (List.mem_cons_of_mem _ hv)))
          rw [tD_col] at h2
          exact le_trans (tD_le_cand s k i j) (add_le_add h1 h2)
        · have hvk' : ∀ v ∈ vs, v < k := by
            intro v hv
            exact lt_of_le_of_ne (Nat.lt_succ_iff.1 (hvk v hv))
              (fun he => hkin (he ▸ hv))
          exact le_trans (tD_le s k i j) (hlow i j hi hj vs hvn hvk')
    intro i j hi hj vs hvn hvk
    rw [hD i j hi hj]
    exact key vs.length vs (le_refl _) i j hi hj hvn hvk
  · -- High at k+1
    intro i j hi hj
    rw [hD i j hi hj]
    unfold tD
    by_cases hcond : s.D i k + s.D k j < s.D i j
    · rw [if_pos hcond]
      obtain ⟨vs1, h1n, h1k, h1e⟩ := hhigh i k hi hk
      obtain ⟨vs2, h2n, h2k, h2e⟩ := hhigh k j hk hj
      refine ⟨vs1 ++ k :: vs2, ?_, ?_, ?_⟩
      · intro v hv
        rcases List.mem_append.1 hv with h1 | h2
        · exact h1n v h1
        · rcases List.mem_cons.1 h2 with rfl | h3
          · exact hk
          · exact h2n v h3
      · intro v hv
        rcases List.mem_append.1 hv with h1 | h2
        · exact Nat.lt_succ_of_lt (h1k v h1)
        · rcases List.mem_cons.1 h2 with rfl | h3
          · exact Nat.lt_succ_self v
          · exact Nat.lt_succ_of_lt (h2k v h3)
      · rw [chainW_append, h1e, h2e]
    · rw [if_neg hcond]
      obtain ⟨vs, hn1, hk1, he⟩ := hhigh i j hi hj
      exact ⟨vs, hn1, fun v hv => Nat.lt_succ_of_lt (hk1 v hv), he⟩
  · -- Pdec at k+1
    intro i j hi hj
    by_cases hcond : s.D i k + s.D k j < s.D i j
    · right
      have hki : k ≠ i := by
        rintro rfl
        exact absurd hcond (not_lt.2 le_add_self)
      have hkj2 : k ≠ j := by
        rintro rfl
        exact absurd hcond (not_lt.2 le_self_add)
      have eD : (passF n k s).D i j = s.D i k + s.D k j := by
        rw [hD i j hi hj]
        unfold tD
        rw [if_pos hcond]
      have eDik : (passF n k s).D i k = s.D i k := by
        rw [hD i k hi hk, tD_row]
      have eDkj : (passF n k s).D k j = s.D k j := by
        rw [hD k j hk hj, tD_col]
      refine ⟨k, Nat.lt_succ_self k, hk, hki, hkj2, ?_, ?_, ?_, ?_, ?_⟩
      · rw [hP i j hi hj]
        unfold tP
        rw [if_pos hcond]
      · rw [eD, eDik, eDkj]
      · rw [eD]
        exact ne_top_of_lt hcond
      · rw [PB, hP i k hi hk, tP_row]
        rcases hpdec i k hi hk with ⟨h1, _⟩ | ⟨m, hmk, _, _, _, hm, _⟩
        · exact Or.inl h1
        · exact Or.inr ⟨m, hm, hmk⟩
      · rw [PB, hP k j hk hj, tP_col]
        rcases hpdec k j hk hj with ⟨h1, _⟩ | ⟨m, hmk, _, _, _, hm, _⟩
        · exact Or.inl h1
        · exact Or.inr ⟨m, hm, hmk⟩
    · have eD : (passF n k s).D i j = s.D i j := by
        rw [hD i j hi hj]
        unfold tD
        rw [if_neg hcond]
      have eP : (passF n k s).P i j = s.P i j := by
        rw [hP i j hi hj]
        unfold tP
        rw [if_neg hcond]
      rcases hpdec i j hi hj with ⟨hPij, hDij⟩ | hrec
      · exact Or.inl ⟨eP.trans hPij, eD.trans hDij⟩
      · obtain ⟨m, hmk, hmn, hmi, hmj, hPij, hEq, hfin, hpb1, hpb2⟩ := hrec

        right
        have hne : s.D i m ≠ ⊤ ∧ s.D m j ≠ ⊤ := by
          apply WithTop.add_ne_top.1
          rw [← hEq]
          exact hfin
        have hfrozen1 : ¬ s.D i k + s.D k m < s.D i m := by
          intro hc
          obtain ⟨va, han, hak, hae⟩ := hhigh k m hk hmn
          obtain ⟨vb, hbn, hbk, hbe⟩ := hhigh m j hmn hj
          have hchain : s.D k j ≤ chainW Wf k (va ++ m :: vb) j := by
            apply hlow k j hk hj
            · intro v hv
              rcases List.mem_append.1 hv with h1 | h2
              · exact han v h1
              · rcases List.mem_cons.1 h2 with rfl | h3
                · exact hmn
                · exact hbn v h3
            · intro v hv
              rcases List.mem_append.1 hv with h1 | h2
              · exact hak v h1
              · rcases List.mem_cons.1 h2 with rfl | h3
                · exact hmk
                · exact hbk v h3
          rw [chainW_append, hae, hbe] at hchain
          apply hcond
          rw [hEq]
          calc s.D i k + s.D k j ≤ s.D i k + (s.D k m + s.D m j) :=
                add_le_add_left hchain _
            _ = (s.D i k + s.D k m) + s.D m j := (add_assoc ..).symm
            _ < s.D i m + s.D m j := WithTop.add_lt_add_right hne.2 hc
        have hfrozen2 : ¬ s.D m k + s.D k j < s.D m j := by
          intro hc
          obtain ⟨va, han, hak, hae⟩ := hhigh i m hi hmn
          obtain ⟨vb, hbn, hbk, hbe⟩ := hhigh m k hmn hk
          have hchain : s.D i k ≤ chainW Wf i (va ++ m :: vb) k := by
            apply hlow i k hi hk
            · intro v hv
              rcases List.mem_append.1 hv with h1 | h2
              · exact han v h1
              · rcases List.mem_cons.1 h2 with rfl | h3
                · exact hmn
                · exact hbn v h3
            · intro v hv
              rcases List.mem_append.1 hv with h1 | h2
              · exact hak v h1
              · rcases List.mem_cons.1 h2 with rfl | h3
                · exact hmk
                · exact hbk v h3
          rw [chainW_append, hae, hbe] at hchain
          apply hcond
          rw [hEq]
          calc s.D i k + s.D k j ≤ (s.D i m + s.D m k) + s.D k j :=
                add_le_add_right hchain _
            _ = s.D i m + (s.D m k + s.D k j) := add_assoc ..
            _ < s.D i m + s.D m j := WithTop.add_lt_add_left hne.1 hc
        have eDim : (passF n k s).D i m = s.D i m := by
          rw [hD i m hi hmn]
          unfold tD
          rw [if_neg hfrozen1]
        have eDmj : (passF n k s).D m j = s.D m j := by
          rw [hD m j hmn hj]
          unfold tD
          rw [if_neg hfrozen2]
        have ePim : (passF n k s).P i m = s.P i m := by
          rw [hP i m hi hmn]
          unfold tP
          rw [if_neg hfrozen1]
        have ePmj : (passF n k s).P m j = s.P m j := by
          rw [hP m j hmn hj]
          unfold tP
          rw [if_neg hfrozen2]
        refine ⟨m, Nat.lt_succ_of_lt hmk, hmn, hmi, hmj, eP.trans hPij, ?_, ?_, ?_, ?_⟩
        · rw [eD, eDim, eDmj]
          exact hEq
        · rw [eD]
          exact hfin
        · rw [PB, ePim]
          exact hpb1
        · rw [PB, ePmj]
          exact hpb2

lemma Inv_run (Wf : ℕ → ℕ → Val) (n : ℕ) :
    ∀ m, m ≤ n →
    Inv Wf n m ((List.range m).foldl (fun s k => passF n k s) ⟨Wf, fun _ _ => inf⟩) := by
  intro m
  induction m with
  | zero =>
    intro _
    exact Inv_zero Wf n
  | succ m ih =>
    intro hm
    rw [List.range_succ, List.foldl_append, List.foldl_cons, List.foldl_nil]
    exact Inv_step Wf n m hm _ (ih (Nat.le_of_succ_le hm))

lemma Inv_runF (Wm : List (List Val)) :
    Inv (Wfun Wm) Wm.length Wm.length (runF Wm.length (initF Wm)) :=
  Inv_run (Wfun Wm) Wm.length Wm.length (le_refl _)

lemma foldr_min_le (l : List Val) (x : Val) (hx : x ∈ l) (t : Val) :
    l.foldr min t ≤ x := by
  induction l with
  | nil => cases hx
  | cons a l ih =>
    rw [List.foldr_cons]
    rcases List.mem_cons.1 hx with rfl | h
    · exact min_le_left ..
    · exact le_trans (min_le_right ..) (ih h)

lemma le_foldr_min (l : List Val) (a : Val) (h : ∀ x ∈ l, a ≤ x) :
    a ≤ l.foldr min ⊤ := by
  induction l with
  | nil => exact le_top
  | cons b l ih =>
    rw [List.foldr_cons]
    exact le_min (h b (List.mem_cons_self ..))
      (ih fun x hx => h x (List.mem_cons_of_mem _ hx))

lemma pathCands_sound {n i j : ℕ} {vs : List ℕ} (h : vs ∈ pathCands n i j) :
    ∀ v ∈ vs, v < n := by
  unfold pathCands at h
  have h1 := (List.mem_filter.1 h).1
  rw [List.mem_flatMap] at h1
  obtain ⟨sub, hsub, hperm⟩ := h1
  rw [List.mem_sublists] at hsub
  rw [List.mem_permutations] at hperm
  intro v hv
  exact List.mem_range.1 (hsub.subset (hperm.mem_iff.1 hv))

lemma nil_mem_pathCands (n i j : ℕ) : [] ∈ pathCands n i j := by
  unfold pathCands
  rw [List.mem_filter]
  constructor
  · rw [List.mem_flatMap]
    refine ⟨[], ?_, ?_⟩
    · rw [List.mem_sublists]
      exact List.nil_sublist _
    · rw [List.mem_permutations]
  · simp

lemma mem_pathCands {n i j : ℕ} {vs : List ℕ} (hn : ∀ v ∈ vs, v < n)
    (hnd : vs.Nodup) (hi : i ∉ vs) (hj : j ∉ vs) : vs ∈ pathCands n i j := by
  unfold pathCands
  rw [List.mem_filter]
  refine ⟨?_, by simp [hi, hj]⟩
  rw [List.mem_flatMap]
  refine ⟨(List.range n).filter (fun v => decide (v ∈ vs)), ?_, ?_⟩
  · rw [List.mem_sublists]
    exact List.filter_sublist _
  · rw [List.mem_permutations]
    apply List.perm_iff_count.2
    intro a
    by_cases ha : a ∈ vs
    · rw [List.count_eq_one_of_mem hnd ha, List.count_eq_one_of_mem
        ((List.nodup_range n).filter _)
        (List.mem_filter.2 ⟨List.mem_range.2 (hn a ha), by simpa using ha⟩)]
    · rw [List.count_eq_zero_of_not_mem ha, List.count_eq_zero_of_not_mem
        (fun hc => ha (by simpa using (List.mem_filter.1 hc).2))]

lemma exists_simple_le (Wf : ℕ → ℕ → Val) (n i j : ℕ) :
    ∀ L : ℕ, ∀ vs : List ℕ, vs.length ≤ L → (∀ v ∈ vs, v < n) →
    ∃ vs', vs' ∈ pathCands n i j ∧ chainW Wf i vs' j ≤ chainW Wf i vs j := by
  intro L
  induction L with
  | zero =>
    intro vs hlen _
    have hnil : vs = [] := List.eq_nil_of_length_eq_zero (Nat.le_zero.1 hlen)
    subst hnil
    exact ⟨[], nil_mem_pathCands n i j, le_refl _⟩
  | succ L ih =>
    intro vs hlen hn
    by_cases hiv : i ∈ vs
    · obtain ⟨s, t, rfl⟩ := List.append_of_mem hiv
      have hlt : chainW Wf i t j ≤ chainW Wf i (s ++ i :: t) j := by
        rw [chainW_append]
        exact le_add_self
      have hlen' : t.length ≤ L := by
        rw [List.length_append, List.length_cons] at hlen
        omega
      obtain ⟨vs', hmem, hle⟩ := ih t hlen'
        (fun v hv => hn v (List.mem_append_right _ (List.mem_cons_of_mem _ hv)))
      exact ⟨vs', hmem, le_trans hle hlt⟩
    · by_cases hjv : j ∈ vs
      · obtain ⟨s, t, rfl⟩ := List.append_of_mem hjv
        have hlt : chainW Wf i s j ≤ chainW Wf i (s ++ j :: t) j := by
          rw [chainW_append]
          exact le_self_add
        have hlen' : s.length ≤ L := by
          rw [List.length_append, List.length_cons] at hlen
          omega
        obtain ⟨vs', hmem, hle⟩ := ih s hlen'
          (fun v hv => hn v (List.mem_append_left _ hv))
        exact ⟨vs', hmem, le_trans hle hlt⟩
      · by_cases hnd : vs.Nodup
        · exact ⟨vs, mem_pathCands hn hnd hiv hjv, le_refl _⟩
        · obtain ⟨a, l1, l2, l3, rfl⟩ := exists_dup_split hnd
          have hlt : chainW Wf i (l1 ++ a :: l3) j ≤
              chainW Wf i (l1 ++ a :: (l2 ++ a :: l3)) j := by
            rw [chainW_append, chainW_append, chainW_append]
            exact add_le_add_left le_add_self _
          have hlen' : (l1 ++ a :: l3).length ≤ L := by
            rw [List.length_append, List.length_cons, List.length_append,
              List.length_cons] at hlen
            rw [List.length_append, List.length_cons]
            omega
          have hn' : ∀ v ∈ l1 ++ a :: l3, v < n := by
            intro v hv
            apply hn v
            rcases List.mem_append.1 hv with h1 | h2
            · exact List.mem_append_left _ h1
            · rcases List.mem_cons.1 h2 with rfl | h3
              · exact List.mem_append_right _ (List.mem_cons_self ..)
              · exact List.mem_append_right _ (List.mem_cons_of_mem _
                  (List.mem_append_right _ (List.mem_cons_of_mem _ h3)))
          obtain ⟨vs', hmem, hle⟩ := ih _ hlen' hn'
          exact ⟨vs', hmem, le_trans hle hlt⟩

lemma final_D_eq (Wm : List (List Val)) (i j : ℕ) (hi : i < Wm.length)
    (hj : j < Wm.length) :
    (runF Wm.length (initF Wm)).D i j = shortestDist (Wfun Wm) Wm.length i j := by
  obtain ⟨hlow, hhigh, _⟩ := Inv_runF Wm
  apply le_antisymm
  · apply le_foldr_min
    intro x hx
    rw [List.mem_map] at hx
    obtain ⟨vs, hvs, rfl⟩ := hx
    exact hlow i j hi hj vs (pathCands_sound hvs)
      (pathCands_sound hvs)
  · obtain ⟨vs, hvn, _, he⟩ := hhigh i j hi hj
    obtain ⟨vs', hmem, hle⟩ :=
      exists_simple_le (Wfun Wm) Wm.length i j vs.length vs (le_refl _) hvn
    calc shortestDist (Wfun Wm) Wm.length i j
        ≤ chainW (Wfun Wm) i vs' j :=
          foldr_min_le _ _ (List.mem_map.2 ⟨vs', hmem, rfl⟩) _
      _ ≤ chainW (Wfun Wm) i vs j := hle
      _ = (runF Wm.length (initF Wm)).D i j := he

lemma final_D_triangle (Wm : List (List Val)) (i j k : ℕ)
    (hi : i < Wm.length) (hj : j < Wm.length) (hk : k < Wm.length) :
    (runF Wm.length (initF Wm)).D i j ≤
      (runF Wm.length (initF Wm)).D i k + (runF Wm.length (initF Wm)).D k j := by
  obtain ⟨hlow, hhigh, _⟩ := Inv_runF Wm
  obtain ⟨vs1, h1n, _, h1e⟩ := hhigh i k hi hk
  obtain ⟨vs2, h2n, _, h2e⟩ := hhigh k j hk hj
  have hmem : ∀ v ∈ vs1 ++ k :: vs2, v < Wm.length := by
    intro v hv
    rcases List.mem_append.1 hv with h1 | h2
    · exact h1n v h1
    · rcases List.mem_cons.1 h2 with rfl | h3
      · exact hk
      · exact h2n v h3
  have := hlow i j hi hj (vs1 ++ k :: vs2) hmem hmem
  rw [chainW_append, h1e, h2e] at this
  exact this

lemma allpairsp_det {Wm : List (List Val)} {n : ℕ}
    {D P D' P' : List (List Val)} (h : allpairsp Wm n = some (D, P))
    (h' : allpairsp Wm n = some (D', P')) : D = D' ∧ P = P' := by
  rw [h] at h'
  cases h'
  exact ⟨rfl, rfl⟩

lemma get_int_path_succ (P : List (List Val)) (fuel i j : ℕ) :
    get_int_path P (fuel + 1) i j =
      match idx P i j with
      | none => none
      | some v =>
        if v = inf then some []
        else
          (get_int_path P fuel i v.toNat).bind fun l =>
            (get_int_path P fuel v.toNat j).map fun r => l ++ v.toNat :: r := rfl

lemma final_PB (Wm : List (List Val)) (i j : ℕ) (hi : i < Wm.length)
    (hj : j < Wm.length) :
    PB (runF Wm.length (initF Wm)) i j Wm.length := by
  rcases (Inv_runF Wm).2.2 i j hi hj with ⟨h1, _⟩ | ⟨m, _, hmn, _, _, hPm, _⟩
  · exact Or.inl h1
  · exact Or.inr ⟨m, hPm, hmn⟩

lemma get_int_path_rec {Wm : List (List Val)} (hsq : Square Wm)
    {D P : List (List Val)} (h : allpairsp Wm 0 = some (D, P)) :
    ∀ fuel b, b < fuel → ∀ i j, i < Wm.length → j < Wm.length →
    PB (runF Wm.length (initF Wm)) i j b →
    ∃ l, get_int_path P fuel i j = some l ∧ (∀ v ∈ l, v < Wm.length) ∧
      chainW (Wfun Wm) i l j = (runF Wm.length (initF Wm)).D i j := by
  obtain ⟨D', P', hrun, hDP⟩ := allpairsp_run hsq
  obtain ⟨rfl, rfl⟩ := allpairsp_det h hrun
  intro fuel
  induction fuel with
  | zero =>
    intro b hb
    exact absurd hb (Nat.not_lt_zero b)
  | succ fuel ih =>
    intro b hb i j hi hj hpb
    have hpd := (Inv_runF Wm).2.2 i j hi hj
    have hread : idx P i j = some ((runF Wm.length (initF Wm)).P i j) :=
      (hDP i j hi hj).2
    rcases hpd with ⟨hPinf, hDW⟩ | ⟨m, hmk, hmn, hmi, hmj, hPm, hEq, hfin, hpb1, hpb2⟩
    · refine ⟨[], ?_, fun v hv => absurd hv (List.not_mem_nil _), ?_⟩
      · rw [get_int_path_succ, hread, hPinf]
        dsimp only
        rw [if_pos rfl]
      · rw [chainW_nil]
        exact hDW.symm
    · have hmb : m < b := by
        rcases hpb with h1 | ⟨m', hm', hlt⟩
        · rw [hPm] at h1
          exact absurd h1 (ENat.coe_ne_top m)
        · rw [hPm] at hm'
          exact (Nat.cast_inj.1 hm') ▸ hlt
      have hmf : m < fuel := lt_of_lt_of_le hmb (Nat.lt_succ_iff.1 hb)
      obtain ⟨l1, e1, g1, c1⟩ := ih m hmf i m hi hmn hpb1
      obtain ⟨l2, e2, g2, c2⟩ := ih m hmf m j hmn hj hpb2
      refine ⟨l1 ++ m :: l2, ?_, ?_, ?_⟩
      · rw [get_int_path_succ, hread, hPm]
        dsimp only
        rw [if_neg (show (m : Val) ≠ inf from ENat.coe_ne_top m),
          ENat.toNat_coe, e1, e2]
        rfl
      · intro v hv
        rcases List.mem_append.1 hv with h1 | h2
        · exact g1 v h1
        · rcases List.mem_cons.1 h2 with rfl | h3
          · exact hmn
          · exact g2 v h3
      · rw [chainW_append, c1, c2]
        exact hEq.symm

lemma relaxS_eq_relax (w d p : List (List Val)) (k i j : ℕ) :
    relaxS ⟨w, d, p⟩ k i j =
      (relax (d, p) k i j).map fun DP => ⟨w, DP.1, DP.2⟩ := by
  unfold relaxS relax
  dsimp only
  rcases idx d i k with _ | a
  · rfl
  · rcases idx d k j with _ | b
    · rfl
    · rcases idx d i j with _ | c
      · rfl
      · dsimp only
        split <;> rfl

lemma allpairspS_eq (Wm : List (List Val)) (n : ℕ) :
    allpairspS Wm n = (allpairsp Wm n).map fun DP => ⟨Wm, DP.1, DP.2⟩ := by
  unfold allpairspS allpairsp
  suffices h : ∀ (l : List (ℕ × ℕ × ℕ)) (d p : List (List Val)),
      List.foldlM (fun s t => relaxS s t.1 t.2.1 t.2.2) (⟨Wm, d, p⟩ : PState) l =
      (List.foldlM (fun DP t => relax DP t.1 t.2.1 t.2.2) (d, p) l).map
        (fun DP => ⟨Wm, DP.1, DP.2⟩) by
    exact h _ _ _
  intro l
  induction l with
  | nil =>
    intro d p
    rfl
  | cons t l ih =>
    intro d p
    rw [List.foldlM_cons, List.foldlM_cons, relaxS_eq_relax]
    cases hrel : relax (d, p) t.1 t.2.1 t.2.2 with
    | none => rfl
    | some DP1 =>
      simp only [Option.map_some', Option.bind_eq_bind, Option.some_bind]
      exact ih DP1.1 DP1.2

/-- The distance matrix computed by allpairsp on the demonstration matrix W. -/
def Wdist : List (List Val) :=
  [[0, 1, 3, 1, 4],
   [8, 0, 3, 2, 5],
   [10, 11, 0, 4, 7],
   [6, 7, 2, 0, 3],
   [3, 4, 6, 4, 0]]

/-- The intermediate matrix computed by allpairsp on the demonstration
matrix W. -/
def Wpath : List (List Val) :=
  [[inf, inf, 3, inf, 3],
   [4, inf, inf, inf, 3],
   [4, 4, inf, inf, 3],
   [4, 4, inf, inf, inf],
   [inf, 0, 3, 0, inf]]

/-- C1: for every square weight matrix with entries in the nonnegative
integers extended with the infinite sentinel (nonnegativity and the absence
of negative cycles are enforced by the value type) and zeros on the
diagonal, allpairsp returns a distance matrix D in which D[i][j] equals the
length of a shortest directed path from vertex i to vertex j for every pair
below n, the infinite sentinel when no path exists. -/
theorem allpairsp_computes_shortest_paths (Wm : List (List Val))
    (hsq : Square Wm) (hdiag : ZeroDiag Wm) :
    ∃ D P, allpairsp Wm 0 = some (D, P) ∧
      ∀ i j, i < Wm.length → j < Wm.length →
        idx D i j = some (shortestDist (Wfun Wm) Wm.length i j) := by
  obtain ⟨D, P, hrun, hDP⟩ := allpairsp_run hsq
  refine ⟨D, P, hrun, fun i j hi hj => ?_⟩
  rw [(hDP i j hi hj).1, final_D_eq Wm i j hi hj]

/-- Witness for C1 at the demonstration matrix. -/
theorem allpairsp_computes_shortest_paths_witness :
    Square W ∧ ZeroDiag W ∧
      (∃ D P, allpairsp W 0 = some (D, P) ∧
        ∀ i j, i < W.length → j < W.length →
          idx D i j = some (shortestDist (Wfun W) W.length i j)) :=
  ⟨by decide, by decide,
    allpairsp_computes_shortest_paths W (by decide) (by decide)⟩

/-- C2 counterexample: a non square matrix whose two rows have three entries
each is processed by allpairsp without any error being raised, so the claim
that allpairsp always fails on a non square W is false. -/
theorem allpairsp_no_error_on_nonsquare :
    ¬ Square [[0, 1, 9], [1, 0, 9]] ∧
      allpairsp [[0, 1, 9], [1, 0, 9]] 0 ≠ none := by decide

/-- C2 amended: allpairsp performs no upfront input validation.  A call
succeeds exactly when the effective vertex count m (the dimension of W when
the argument n is 0, else n) satisfies m <= len W with each of the first m
rows at least m long; otherwise an index error surfaces inside the
relaxation loop, not before computation begins, and a non square W whose
rows are long enough is accepted silently. -/
theorem allpairsp_success_iff_shape (Wm : List (List Val)) (n : ℕ) :
    (∃ DP, allpairsp Wm n = some DP) ↔
      ReadOK (if n = 0 then Wm.length else n) Wm :=
  allpairsp_eq_some_iff Wm n

/-- Witness for the amended C2. -/
theorem allpairsp_success_iff_shape_witness :
    ∃ DP, allpairsp [[(0 : Val)]] 0 = some DP :=
  (allpairsp_success_iff_shape [[(0 : Val)]] 0).mpr (by decide)

/-- C3 counterexample: with n = 1 on the square 2 x 2 matrix the call
succeeds, but D keeps dimension 2 (it is a deep copy of W) while P is 1 x 1,
so D and P do not both have dimension n x n equal to the dimension of W. -/
theorem allpairsp_dims_counterexample :
    ∃ D P, allpairsp [[0, 1], [1, 0]] 1 = some (D, P) ∧
      D.length ≠ 1 ∧ P.length ≠ [[(0 : Val), 1], [1, 0]].length :=
  ⟨[[0, 1], [1, 0]], [[inf]], by decide, by decide, by decide⟩

/-- C3 amended: D always has exactly the shape of W (it starts as a deep
copy of W and relaxation rewrites cells in place), while P is m x m for the
effective vertex count m; when n is left at its default and W is square,
both are n x n as the specification states. -/
theorem allpairsp_dims {Wm : List (List Val)} {n : ℕ} {D P : List (List Val)}
    (h : allpairsp Wm n = some (D, P)) :
    D.length = Wm.length ∧ (∀ a, RowLen D a = RowLen Wm a) ∧
    P.length = (if n = 0 then Wm.length else n) ∧
    (∀ a, a < (if n = 0 then Wm.length else n) →
      RowLen P a = (if n = 0 then Wm.length else n)) :=
  allpairsp_shape h

/-- Witness for the amended C3. -/
theorem allpairsp_dims_witness :
    allpairsp [[(0 : Val)]] 0 = some ([[0]], [[inf]]) ∧
      (([[(0 : Val)]] : List (List Val)).length = [[(0 : Val)]].length ∧
        (∀ a, RowLen [[(0 : Val)]] a = RowLen [[(0 : Val)]] a) ∧
        ([[(inf : Val)]] : List (List Val)).length =
          (if (0 : ℕ) = 0 then ([[(0 : Val)]] : List (List Val)).length else 0) ∧
        (∀ a, a < (if (0 : ℕ) = 0 then
            ([[(0 : Val)]] : List (List Val)).length else 0) →
          RowLen [[(inf : Val)]] a =
            (if (0 : ℕ) = 0 then ([[(0 : Val)]] : List (List Val)).length else 0))) :=
  ⟨by decide, allpairsp_dims (by decide)⟩

/-- C4 counterexample: on the 5 x 5 demonstration matrix the computed
D[0][2] is not 6 (it is 3: the path v1 to v4 to v3 has weight 1 + 2). -/
theorem allpairsp_example_D02_ne_six :
    (allpairsp W 0).bind (fun DP => idx DP.1 0 2) ≠ some 6 := by decide

/-- C4 amended: the run on the demonstration matrix yields D[0][2] = 3
together with the non sentinel entry P[0][2] = 3. -/
theorem allpairsp_example_D02 :
    (allpairsp W 0).bind (fun DP => idx DP.1 0 2) = some 3 ∧
    (allpairsp W 0).bind (fun DP => idx DP.2 0 2) = some 3 ∧
    (3 : Val) ≠ inf := by decide

/-- C5: on a valid square input with zero diagonal (nonnegative weights and
the absence of negative cycles are enforced by the value type), for every
pair with finite D[i][j] the path reconstructed from P, that is i, then the
recursively resolved intermediates, then j, has consecutive pair edge
weights in W summing exactly to D[i][j]. -/
theorem get_int_path_sums_to_D {Wm : List (List Val)} (hsq : Square Wm)
    (hdiag : ZeroDiag Wm) {D P : List (List Val)}
    (h : allpairsp Wm 0 = some (D, P)) {i j : ℕ} (hi : i < Wm.length)
    (hj : j < Wm.length) {d : Val} (hd : idx D i j = some d) (hfin : d ≠ inf) :
    ∃ l, get_int_path P (Wm.length + 1) i j = some l ∧
      chainW (Wfun Wm) i l j = d := by
  obtain ⟨D', P', hrun, hDP⟩ := allpairsp_run hsq
  obtain ⟨rfl, rfl⟩ := allpairsp_det h hrun
  have hdF : d = (runF Wm.length (initF Wm)).D i j := by
    have hx := (hDP i j hi hj).1
    rw [hd] at hx
    exact Option.some_inj.1 hx
  obtain ⟨l, e, _, c⟩ := get_int_path_rec hsq h (Wm.length + 1) Wm.length
    (Nat.lt_succ_self _) i j hi hj (final_PB Wm i j hi hj)
  refine ⟨l, e, ?_⟩
  rw [c, ← hdF]

/-- Witness for C5 at the demonstration matrix, pair (0, 2). -/
theorem get_int_path_sums_to_D_witness :
    ∃ l, get_int_path Wpath (W.length + 1) 0 2 = some l ∧
      chainW (Wfun W) 0 l 2 = 3 :=
  get_int_path_sums_to_D (show Square W by decide) (show ZeroDiag W by decide)
    (show allpairsp W 0 = some (Wdist, Wpath) by decide)
    (show (0 : ℕ) < W.length by decide) (show (2 : ℕ) < W.length by decide)
    (show idx Wdist 0 2 = some 3 by decide) (show (3 : Val) ≠ inf by decide)

/-- C6: arithmetic on the infinite sentinel saturates: the sentinel plus any
value (in either order, including itself) is the sentinel, and a relaxation
step whose candidate sum involves the sentinel leaves D and P unchanged, so
no overflow driven false improvement can occur. -/
theorem relax_inf_saturates {DP : List (List Val) × List (List Val)}
    {k i j : ℕ} {a b c : Val} (hik : idx DP.1 i k = some a)
    (hkj : idx DP.1 k j = some b) (hij : idx DP.1 i j = some c)
    (hsat : a = inf ∨ b = inf) :
    relax DP k i j = some DP ∧ a + b = inf ∧
      ∀ x : Val, inf + x = inf ∧ x + inf = inf := by
  have hsum : a + b = inf := by
    rcases hsat with rfl | rfl
    · exact top_add b
    · exact add_top a
  refine ⟨?_, hsum, fun x => ⟨top_add x, add_top x⟩⟩
  unfold relax
  rw [hik, hkj, hij]
  dsimp only
  have hnlt : ¬ a + b < c := by
    rw [hsum]
    exact not_lt.2 le_top
  rw [if_neg hnlt]

/-- Witness for C6: a relaxation whose left summand is the sentinel. -/
theorem relax_inf_saturates_witness :
    relax ([[inf, 1], [2, 3]], [[inf, inf], [inf, inf]]) 0 0 1 =
        some ([[inf, 1], [2, 3]], [[inf, inf], [inf, inf]]) ∧
      (inf + 1 : Val) = inf ∧ ∀ x : Val, inf + x = inf ∧ x + inf = inf :=
  relax_inf_saturates
    (show idx [[inf, 1], [2, 3]] 0 0 = some inf by decide)
    (show idx [[inf, 1], [2, 3]] 0 1 = some 1 by decide)
    (show idx [[inf, 1], [2, 3]] 0 1 = some 1 by decide)
    (Or.inl rfl)

/-- C7: after allpairsp completes on a valid square input with zero
diagonal, the returned D satisfies the triangle inequality
D[i][j] <= D[i][k] + D[k][j] for all vertex indices i, j, k below n. -/
theorem allpairsp_triangle {Wm : List (List Val)} (hsq : Square Wm)
    (hdiag : ZeroDiag Wm) {D P : List (List Val)}
    (h : allpairsp Wm 0 = some (D, P)) {i j k : ℕ} (hi : i < Wm.length)
    (hj : j < Wm.length) (hk : k < Wm.length) {dij dik dkj : Val}
    (h1 : idx D i j = some dij) (h2 : idx D i k = some dik)
    (h3 : idx D k j = some dkj) : dij ≤ dik + dkj := by
  obtain ⟨D', P', hrun, hDP⟩ := allpairsp_run hsq
  obtain ⟨rfl, rfl⟩ := allpairsp_det h hrun
  have e1 : dij = (runF Wm.length (initF Wm)).D i j := by
    have hx := (hDP i j hi hj).1
    rw [h1] at hx
    exact Option.some_inj.1 hx
  have e2 : dik = (runF Wm.length (initF Wm)).D i k := by
    have hx := (hDP i k hi hk).1
    rw [h2] at hx
    exact Option.some_inj.1 hx
  have e3 : dkj = (runF Wm.length (initF Wm)).D k j := by
    have hx := (hDP k j hk hj).1
    rw [h3] at hx
    exact Option.some_inj.1 hx
  rw [e1, e2, e3]
  exact final_D_triangle Wm i j k hi hj hk

/-- Witness for C7 at the demonstration matrix with i = 0, j = 2, k = 3,
where the inequality is tight: 3 <= 1 + 2. -/
theorem allpairsp_triangle_witness : (3 : Val) ≤ 1 + 2 :=
  allpairsp_triangle (show Square W by decide) (show ZeroDiag W by decide)
    (show allpairsp W 0 = some (Wdist, Wpath) by decide)
    (show (0 : ℕ) < W.length by decide) (show (2 : ℕ) < W.length by decide)
    (show (3 : ℕ) < W.length by decide)
    (show idx Wdist 0 2 = some 3 by decide)
    (show idx Wdist 0 3 = some 1 by decide)
    (show idx Wdist 3 2 = some 2 by decide)

/-- C8: allpairsp never mutates its input matrix W.  In the state passing
model of the Python mutation, allpairspS carries the caller matrix W through
the whole computation next to the working copies D and P (it computes the
same D and P as allpairsp by allpairspS_eq, since the loop body reads and
writes only the D and P components), and the W component of the final state
is the input matrix, cell for cell unchanged. -/
theorem allpairspS_never_mutates_W (Wm : List (List Val)) (n : ℕ)
    (s' : PState) (h : allpairspS Wm n = some s') : s'.W = Wm := by
  unfold allpairspS at h
  exact foldlM_relaxS_W _ _ _ h

/-- Witness for C8 on a one vertex graph. -/
theorem allpairspS_never_mutates_W_witness :
    allpairspS [[(0 : Val)]] 0 = some ⟨[[0]], [[0]], [[inf]]⟩ ∧
      (PState.mk [[(0 : Val)]] [[0]] [[inf]]).W = [[(0 : Val)]] :=
  ⟨by decide,
    allpairspS_never_mutates_W [[(0 : Val)]] 0 ⟨[[0]], [[0]], [[inf]]⟩ (by decide)⟩

/-- C9: on a valid completed run the recursive reconstruction terminates for
every pair: fuel n + 1, that is a recursion depth bound of n + 1, always
suffices, because the recorded intermediate index strictly decreases along
every recursion branch (one level per intermediate, plus the leaf), and
every emitted intermediate is one of the n vertices. -/
theorem get_int_path_terminates {Wm : List (List Val)} (hsq : Square Wm)
    (hdiag : ZeroDiag Wm) {D P : List (List Val)}
    (h : allpairsp Wm 0 = some (D, P)) {i j : ℕ} (hi : i < Wm.length)
    (hj : j < Wm.length) :
    ∃ l, get_int_path P (Wm.length + 1) i j = some l ∧
      ∀ v ∈ l, v < Wm.length := by
  obtain ⟨l, e, g, _⟩ := get_int_path_rec hsq h (Wm.length + 1) Wm.length
    (Nat.lt_succ_self _) i j hi hj (final_PB Wm i j hi hj)
  exact ⟨l, e, g⟩

/-- Witness for C9 at the demonstration matrix, pair (1, 0). -/
theorem get_int_path_terminates_witness :
    ∃ l, get_int_path Wpath (W.length + 1) 1 0 = some l ∧
      ∀ v ∈ l, v < W.length :=
  get_int_path_terminates (show Square W by decide) (show ZeroDiag W by decide)
    (show allpairsp W 0 = some (Wdist, Wpath) by decide)
    (show (1 : ℕ) < W.length by decide) (show (0 : ℕ) < W.length by decide)

/-- C10: every entry of P that is not the infinite sentinel is a vertex
index m with m < n, m distinct from the row index i and from the column
index j: a relaxation through k = i or k = j would need a strictly negative
D[i][i] or D[j][j], which cannot occur with nonnegative values, so every
recorded intermediate is strictly interior. -/
theorem allpairsp_P_strictly_interior {Wm : List (List Val)} (hsq : Square Wm)
    (hdiag : ZeroDiag Wm) {D P : List (List Val)}
    (h : allpairsp Wm 0 = some (D, P)) {i j : ℕ} (hi : i < Wm.length)
    (hj : j < Wm.length) {p : Val} (hp : idx P i j = some p) (hne : p ≠ inf) :
    ∃ m : ℕ, p = (m : ℕ∞) ∧ m < Wm.length ∧ m ≠ i ∧ m ≠ j := by
  obtain ⟨D', P', hrun, hDP⟩ := allpairsp_run hsq
  obtain ⟨rfl, rfl⟩ := allpairsp_det h hrun
  have hpF : p = (runF Wm.length (initF Wm)).P i j := by
    have hx := (hDP i j hi hj).2
    rw [hp] at hx
    exact Option.some_inj.1 hx
  rcases (Inv_runF Wm).2.2 i j hi hj with ⟨h1, _⟩ | ⟨m, _, hmn, hmi, hmj, hPm, _⟩
  · rw [hpF, h1] at hne
    exact absurd rfl hne
  · exact ⟨m, hpF.trans hPm, hmn, hmi, hmj⟩

/-- Witness for C10 at the demonstration matrix, entry P[0][2] = 3. -/
theorem allpairsp_P_strictly_interior_witness :
    ∃ m : ℕ, (3 : Val) = (m : ℕ∞) ∧ m < W.length ∧ m ≠ 0 ∧ m ≠ 2 :=
  allpairsp_P_strictly_interior (show Square W by decide)
    (show ZeroDiag W by decide)
    (show allpairsp W 0 = some (Wdist, Wpath) by decide)
    (show (0 : ℕ) < W.length by decide) (show (2 : ℕ) < W.length by decide)
    (show idx Wpath 0 2 = some 3 by decide) (show (3 : Val) ≠ inf by decide)

end Algorithms
